import Mathlib

/-!
Verification of the gokvkit/wolverine document-database engine against its
specification.  The Go sources are shallowly embedded: JSON documents become an
inductive value type, gjson/sjson path operations become recursive functions,
and the transactional write path becomes a function from a key-value snapshot
to a list of mutations.
-/

namespace GoKVKit

/-- JSON values as parsed by gjson: null, booleans, numbers, strings, arrays and
objects.  Objects keep key order (gjson documents are ordered) and may in
principle carry duplicate keys, like raw JSON.  Numbers are modelled as
integers standing in for Go `float64` values: every numeric value the
verified claims exercise is integral, and float64 arithmetic and comparison on
integral values of this size are exact. -/
inductive JVal : Type where
  | null : JVal
  | bool : Bool → JVal
  | num : Int → JVal
  | str : String → JVal
  | arr : List JVal → JVal
  | obj : List (String × JVal) → JVal

mutual

/-- Structural equality of JSON values (Go interface equality after parsing). -/
def beqJVal : JVal → JVal → Bool
  | .null, .null => true
  | .bool a, .bool b => a == b
  | .num a, .num b => a == b
  | .str a, .str b => a == b
  | .arr a, .arr b => beqJList a b
  | .obj a, .obj b => beqJKVs a b
  | _, _ => false

def beqJList : List JVal → List JVal → Bool
  | [], [] => true
  | a :: as, b :: bs => beqJVal a b && beqJList as bs
  | _, _ => false

def beqJKVs : List (String × JVal) → List (String × JVal) → Bool
  | [], [] => true
  | (k, v) :: as, (k2, v2) :: bs => k == k2 && beqJVal v v2 && beqJKVs as bs
  | _, _ => false

end

mutual

theorem beqJVal_iff : ∀ (a b : JVal), beqJVal a b = true ↔ a = b
  | .null, b => by cases b <;> simp [beqJVal]
  | .bool x, b => by cases b <;> simp [beqJVal]
  | .num x, b => by cases b <;> simp [beqJVal]
  | .str x, b => by cases b <;> simp [beqJVal]
  | .arr xs, b => by
      cases b <;> simp [beqJVal]
      exact beqJList_iff xs _
  | .obj xs, b => by
      cases b <;> simp [beqJVal]
      exact beqJKVs_iff xs _

theorem beqJList_iff : ∀ (a b : List JVal), beqJList a b = true ↔ a = b
  | [], b => by cases b <;> simp [beqJList]
  | x :: xs, [] => by simp [beqJList]
  | x :: xs, y :: ys => by
      simp [beqJList, beqJVal_iff x y, beqJList_iff xs ys]

theorem beqJKVs_iff : ∀ (a b : List (String × JVal)), beqJKVs a b = true ↔ a = b
  | [], b => by cases b <;> simp [beqJKVs]
  | x :: xs, [] => by simp [beqJKVs]
  | (k, v) :: xs, (k2, v2) :: ys => by
      simp [beqJKVs, beqJVal_iff v v2, beqJKVs_iff xs ys]

end

instance : DecidableEq JVal := fun a b => decidable_of_iff _ (beqJVal_iff a b)

instance : BEq JVal := ⟨beqJVal⟩

instance {ε α : Type} [DecidableEq ε] [DecidableEq α] : DecidableEq (Except ε α) :=
  fun a b =>
    match a, b with
    | .ok x, .ok y => decidable_of_iff (x = y) (by simp)
    | .error x, .error y => decidable_of_iff (x = y) (by simp)
    | .ok _, .error _ => .isFalse (by simp)
    | .error _, .ok _ => .isFalse (by simp)

/-- Looks a key up in an object's field list (first occurrence wins, as gjson
path lookup does). -/
def lookupKey : List (String × JVal) → String → Option JVal
  | [], _ => none
  | (k, v) :: rest, key => if k = key then some v else lookupKey rest key

/-- gjson dotted-path get, on an already-split path; a missing path yields the
Null result (gjson's zero `Result` has type Null). -/
def getPath : JVal → List String → JVal
  | v, [] => v
  | .obj kvs, k :: rest =>
      match lookupKey kvs k with
      | some v => getPath v rest
      | none => .null
  | _, _ :: _ => .null

/-- Splits a character list at every occurrence of the delimiter (the splitting
`strings.Split`/gjson path parsing performs; `"" ↦ [""]`). -/
def splitChars (delim : Char) : List Char → List (List Char)
  | [] => [[]]
  | c :: rest =>
      match splitChars delim rest with
      | [] => if c = delim then [[], []] else [[c]]
      | seg :: segs => if c = delim then [] :: seg :: segs else (c :: seg) :: segs

/-- Splits a dotted gjson/sjson path into its segments. -/
def splitDots (s : String) : List String :=
  (splitChars '.' s.data).map (fun cs => ⟨cs⟩)

/-- Byte-lexicographic `<` on strings, as Go compares strings. -/
def charListLt : List Char → List Char → Bool
  | [], [] => false
  | [], _ :: _ => true
  | _ :: _, [] => false
  | a :: as, b :: bs => if a < b then true else if b < a then false else charListLt as bs

/-- Go's `>` on strings (byte-lexicographic). -/
def strGt (a b : String) : Bool := charListLt b.data a.data

/-- `Document.Get`: gjson get with dot notation (array indexing by number is not
used by the verified claims and is not modelled). -/
def jget (d : JVal) (field : String) : JVal := getPath d (splitDots field)

/-- Replaces the value stored under `key` (first occurrence), leaving the list
unchanged when the key is absent. -/
def setKey : List (String × JVal) → String → JVal → List (String × JVal)
  | [], _, _ => []
  | (k, w) :: rest, key, v =>
      if k = key then (k, v) :: rest else (k, w) :: setKey rest key v

/-- sjson dotted-path set: overwrites the value at the path, creating missing
intermediate objects, replacing non-object intermediates by objects, and
appending new keys at the end of the object, as sjson does. -/
def setPath : JVal → List String → JVal → JVal
  | _, [], v => v
  | .obj kvs, k :: rest, v =>
      match lookupKey kvs k with
      | some w => .obj (setKey kvs k (setPath w rest v))
      | none => .obj (kvs ++ [(k, setPath .null rest v)])
  | _, k :: rest, v => .obj [(k, setPath .null rest v)]

/-- `Document.Set` / the single-key case of `Document.SetAll` (sjson.Set with a
dotted field). -/
def jset (d : JVal) (field : String) (v : JVal) : JVal := setPath d (splitDots field) v

/-- The gjson `Result.Type` tags: `Null`, `False`, `Number`, `String`, `True`
and `JSON` (arrays and objects). -/
inductive GType : Type where
  | null | bfalse | number | string | btrue | json
deriving Repr, DecidableEq

def gType : JVal → GType
  | .null => .null
  | .bool false => .bfalse
  | .bool true => .btrue
  | .num _ => .number
  | .str _ => .string
  | .arr _ => .json
  | .obj _ => .json

def digitVal (c : Char) : Option Nat :=
  if c.isDigit then some (c.toNat - 48) else none

def digitsVal (cs : List Char) : Option Nat :=
  if cs.isEmpty then none
  else cs.foldlM (fun acc c => (digitVal c).map (fun d => 10 * acc + d)) 0

/-- `strconv.ParseFloat` as gjson and spf13/cast use it, restricted to plain
integer literals; anything else yields the Go zero value 0 (fractional and
exponent notation are not modelled — no verified claim feeds such strings). -/
def parseFloat (s : String) : Int :=
  let negBody : Bool × List Char :=
    match s.data with
    | '-' :: rest => (true, rest)
    | '+' :: rest => (false, rest)
    | cs => (false, cs)
  let val : Option Int :=
    match splitChars '.' negBody.2 with
    | [ip] => (digitsVal ip).map (fun n => (n : Int))
    | _ => none
  match val with
  | some q => if negBody.1 then -q else q
  | none => 0

/-- Canonical decimal rendering of a JSON number (the raw numeral of a gjson
result; integral values render like Go does). -/
def ratToString (q : Int) : String := toString q

mutual

/-- Renders a JSON value back to text; `Document.Bytes` returns exactly the raw
text of the parsed document, which this models canonically. -/
def renderJSON : JVal → String
  | .null => "null"
  | .bool true => "true"
  | .bool false => "false"
  | .num q => ratToString q
  | .str s => "\"" ++ s ++ "\""
  | .arr l => "[" ++ renderJArr l ++ "]"
  | .obj kvs => "\x7b" ++ renderJObj kvs ++ "\x7d"

def renderJArr : List JVal → String
  | [] => ""
  | [v] => renderJSON v
  | v :: rest => renderJSON v ++ "," ++ renderJArr rest

def renderJObj : List (String × JVal) → String
  | [] => ""
  | [(k, v)] => "\"" ++ k ++ "\":" ++ renderJSON v
  | (k, v) :: rest => "\"" ++ k ++ "\":" ++ renderJSON v ++ "," ++ renderJObj rest

end

/-- gjson `Result.Float()`: numbers yield their value, strings are parsed,
`true` is 1, everything else is 0. -/
def gFloat : JVal → Int
  | .num q => q
  | .str s => parseFloat s
  | .bool true => 1
  | _ => 0

/-- gjson `Result.String()`: Null renders empty, booleans and numbers their
literal form, strings themselves, arrays/objects their raw JSON. -/
def gString : JVal → String
  | .null => ""
  | .bool true => "true"
  | .bool false => "false"
  | .num q => ratToString q
  | .str s => s
  | v => renderJSON v

/-- gjson `Result.Bool()`: strings go through `strconv.ParseBool` on their
lowercased form, numbers test non-zero, and only True among the remaining
types is true. -/
def gBool : JVal → Bool
  | .bool b => b
  | .str s =>
      let t : String := ⟨s.data.map Char.toLower⟩
      t = "true" || t = "t" || t = "1"
  | .num q => q != 0
  | _ => false

/-- `cast.ToString`: nil and unsupported kinds (maps, slices) become the empty
string. -/
def castToString : JVal → String
  | .null => ""
  | .bool true => "true"
  | .bool false => "false"
  | .num q => ratToString q
  | .str s => s
  | _ => ""

/-- `cast.ToFloat64`: nil and unsupported kinds become 0. -/
def castToFloat : JVal → Int
  | .num q => q
  | .str s => parseFloat s
  | .bool true => 1
  | _ => 0

/-- `Document.Valid()` in the gokvkit model package: the bytes re-parse (always
true after a successful parse) and the root is not an array. -/
def jvalValid : JVal → Bool
  | .arr _ => false
  | _ => true

def JVal.isNum : JVal → Bool
  | .num _ => true
  | _ => false

/-- `NewDocumentFromBytes` (gokvkit model package).  The byte input is
represented by its gjson parse result: `none` when `gjson.ValidBytes` rejects
the bytes, `some v` for the parsed root value. -/
def newDocumentFromBytes : Option JVal → Except String JVal
  | none => .error "invalid json"
  | some v => if jvalValid v then .ok v else .error "invalid document"

/-- A where clause `{field, op, value}`. -/
structure Where where
  field : String
  op : String
  value : JVal
deriving DecidableEq

/-- `gjson.Result.Array()` after a JSON round-trip of the clause value: null
yields no elements, an array its elements, and any other value a singleton. -/
def gjsonArray : JVal → List JVal
  | .null => []
  | .arr l => l
  | v => [v]

/-- `strings.Contains`: some suffix of `s` starts with `pat` (true for the
empty pattern). -/
def containsChars (s pat : List Char) : Bool :=
  if pat.isPrefixOf s then true
  else
    match s with
    | [] => false
    | _ :: rest => containsChars rest pat

/-- One operator case of `Document.Where` (gokvkit model package): the
switch on `w.Op` is a sequence of equality tests.  `==`/`!=` compare parsed
values, the range operators compare `GetFloat` against `cast.ToFloat64`,
`in` tests membership in the clause value viewed as an array, `contains`
tests substring containment of the string forms, and any other operator is
the error case. -/
def evalClause (d : JVal) (w : Where) : Except String Bool :=
  if w.op = "==" then .ok (w.value == jget d w.field)
  else if w.op = "!=" then .ok (!(w.value == jget d w.field))
  else if w.op = ">" then .ok (decide (castToFloat w.value < castToFloat (jget d w.field)))
  else if w.op = ">=" then .ok (decide (castToFloat w.value ≤ castToFloat (jget d w.field)))
  else if w.op = "<" then .ok (decide (castToFloat (jget d w.field) < castToFloat w.value))
  else if w.op = "<=" then .ok (decide (castToFloat (jget d w.field) ≤ castToFloat w.value))
  else if w.op = "in" then .ok ((gjsonArray w.value).any (fun e => e == jget d w.field))
  else if w.op = "contains" then
    .ok (containsChars (castToString (jget d w.field)).data (castToString w.value).data)
  else .error ("invalid operator: " ++ w.op)

/-- `Document.Where`: clauses are evaluated in order; the first failing clause
returns false with no error, a clause with an unknown operator returns its
error. -/
def docWhere (d : JVal) : List Where → Except String Bool
  | [] => .ok true
  | w :: rest =>
      match evalClause d w with
      | .error e => .error e
      | .ok false => .ok false
      | .ok true => docWhere d rest

/-- The operator set `Document.Where` accepts. -/
def validOp (op : String) : Bool :=
  op = "==" || op = "!=" || op = ">" || op = ">=" ||
  op = "<" || op = "<=" || op = "in" || op = "contains"

/-- Whether a single clause holds on a document (false on the error case). -/
def clauseHolds (d : JVal) (w : Where) : Bool :=
  match evalClause d w with
  | .ok b => b
  | .error _ => false

/-- Sort direction of an orderBy entry. -/
inductive Direction : Type where
  | asc | desc
deriving Repr, DecidableEq

structure OrderBy where
  field : String
  direction : Direction
deriving DecidableEq

/-- schema/util.go `compareField`: branches on the gjson type of the FIRST
document's field value; Null and False values never compare greater, numbers
compare as floats, and strings together with every remaining type (including
True) compare by their gjson string forms. -/
def compareField (field : String) (i j : JVal) : Bool :=
  let iv := jget i field
  let jv := jget j field
  match gType iv with
  | .null => false
  | .bfalse => gBool iv && !(gBool jv)
  | .number => decide (gFloat jv < gFloat iv)
  | .string => strGt (gString iv) (gString jv)
  | _ => strGt (gString iv) (gString jv)

/-- Inserts into the accumulated list before the first element the comparator
puts it below. -/
def insertCmp (less : α → α → Bool) (x : α) : List α → List α
  | [] => [x]
  | y :: ys => if less x y then x :: y :: ys else y :: insertCmp less x ys

/-- `sort.Slice`, modelled as insertion sort.  Go's pdqsort is an unspecified
comparison sort: it promises only a permutation that is ordered by the
comparator, which insertion sort is too; the theorems below rely only on
comparator-forced positions. -/
def sortSlice (less : α → α → Bool) (l : List α) : List α :=
  l.foldl (fun acc x => insertCmp less x acc) []

/-- schema/util.go `SortOrder`: an empty field leaves the list untouched,
DESC sorts with `compareField` as the less function, ASC with its negation. -/
def SortOrder (orderBy : OrderBy) (documents : List JVal) : List JVal :=
  if orderBy.field = "" then documents
  else
    match orderBy.direction with
    | .desc => sortSlice (fun i j => compareField orderBy.field i j) documents
    | .asc => sortSlice (fun i j => !(compareField orderBy.field i j)) documents

/-- The comparison order the spec claims.  This second definition follows the
spec's words — null < false < true < numbers < strings, each type compared by
its natural order — and exists only to be compared against the
implementation's `compareField`/`SortOrder`. -/
def specTypeRank : JVal → Nat
  | .null => 0
  | .bool false => 1
  | .bool true => 2
  | .num _ => 3
  | .str _ => 4
  | _ => 5

/-- Spec-claimed strict value order (see `specTypeRank`). -/
def specValueLt (a b : JVal) : Bool :=
  if specTypeRank a < specTypeRank b then true
  else if specTypeRank b < specTypeRank a then false
  else
    match a, b with
    | .num x, .num y => decide (x < y)
    | .str x, .str y => charListLt x.data y.data
    | _, _ => false

/-- The aggregate functions of the query model.  The constant set itself is not
under src/; the spec lists `{count, sum, min, max, avg}`, so `avg` is modelled
from the spec — the reducer switch in the source has no case for it. -/
inductive AggFn : Type where
  | count | max | min | sum | avg
deriving Repr, DecidableEq

def AggFn.str : AggFn → String
  | .count => "count"
  | .max => "max"
  | .min => "min"
  | .sum => "sum"
  | .avg => "avg"

/-- Modelled from the spec/tests: `defaultAs` builds the default alias
(`defaultAs(Count, "account_id") = "count_account_id"` per the util test). -/
def defaultAs (fn : AggFn) (field : String) : String := fn.str ++ "_" ++ field

/-- A `Select` entry `{field, as?, aggregate?}`. -/
structure Sel where
  field : String
  as : Option String := none
  aggregate : Option AggFn := none
deriving DecidableEq

/-- The alias a `Documents.Aggregate` iteration writes to.  With both `As` and
`Aggregate` nil the Go code dereferences a nil pointer; that (unreachable for
well-formed selects) case is modelled as the empty alias. -/
def selAlias (s : Sel) : String :=
  match s.as with
  | some a => a
  | none =>
      match s.aggregate with
      | some fn => defaultAs fn s.field
      | none => ""

/-- One `agg` iteration of the inner loop of `Documents.Aggregate`: reads the
running value from the alias field of the accumulated document, applies the
reducer, and writes the alias back.  An aggregate outside
`{count, max, min, sum}` falls to the default branch and errors. -/
def applyAggStep (aggregated next : JVal) (agg : Sel) : Except String JVal :=
  let asName := selAlias agg
  match agg.aggregate with
  | none => .ok (jset aggregated asName (jget aggregated agg.field))
  | some fn =>
      let current := castToFloat (jget aggregated asName)
      match fn with
      | .count => .ok (jset aggregated asName (.num (current + 1)))
      | .max =>
          let value := castToFloat (jget next agg.field)
          .ok (jset aggregated asName (.num (if current < value then value else current)))
      | .min =>
          let value := castToFloat (jget next agg.field)
          .ok (jset aggregated asName (.num (if value < current then value else current)))
      | .sum =>
          let value := castToFloat (jget next agg.field)
          .ok (jset aggregated asName (.num (current + value)))
      | _ => .error ("unsupported aggregate function: " ++ agg.field ++ "/" ++ fn.str)

/-- The document loop of `Documents.Aggregate`.  The first (valid) document
becomes the accumulator by pointer assignment, so during its own iteration
`next` aliases the accumulator; for later documents `next` is the unchanged
input document. -/
def aggregateLoop (aggs : List Sel) : Option JVal → List JVal → Except String (Option JVal)
  | acc, [] => .ok acc
  | acc, next :: rest =>
      let a0 : JVal :=
        match acc with
        | some a => if jvalValid a then a else next
        | none => next
      let aliased : Bool :=
        match acc with
        | some a => !(jvalValid a)
        | none => true
      match aggs.foldlM (fun a agg => applyAggStep a (if aliased then a else next) agg) a0 with
      | .error e => .error e
      | .ok a2 => aggregateLoop aggs (some a2) rest

/-- `Documents.Aggregate` (gokvkit model package). -/
def aggregateDocs (docs : List JVal) (aggs : List Sel) : Except String (Option JVal) :=
  aggregateLoop aggs none docs

/-- The group key of `Documents.GroupBy`: the document's groupBy field values
cast to strings and joined with ".". -/
def groupKey (fields : List String) (d : JVal) : String :=
  String.intercalate "." (fields.map (fun g => castToString (jget d g)))

/-- One fiber of `Documents.GroupBy`: the Go map sends each group key to the
documents carrying it, in input order. -/
def groupFiber (docs : List JVal) (fields : List String) (k : String) : List JVal :=
  docs.filter (fun d => groupKey fields d = k)

/-- The distinct group keys in first-occurrence order (the Go map's key set). -/
def groupKeys (docs : List JVal) (fields : List String) : List String :=
  (docs.map (groupKey fields)).dedup

/-- `lo.Slice`: slice with clamping — an inverted range yields nil, and both
bounds clamp to the collection length. -/
def loSlice (xs : List α) (start fin : Nat) : List α :=
  if fin ≤ start then []
  else
    let s := min start xs.length
    let e := min fin xs.length
    (xs.drop s).take (e - s)

/-- `Document.Select` of the wolverine schema package: empty or `*` selections
return the document, otherwise the selected dotted gets are assembled into a
fresh document. -/
def selectDoc (fields : List String) (d : JVal) : JVal :=
  if fields = [] ∨ fields.head? = some "*" then d
  else (fields.map (fun f => (f, jget d f))).foldl (fun a kv => jset a kv.1 kv.2) (.obj [])

/-- The query object handed to `queryCollection` (select/where/orderBy/page/
limit; the scan inputs are modelled separately as the collected document
list). -/
structure Query where
  select : List String := []
  wheres : List Where := []
  orderBy : OrderBy := ⟨"", .asc⟩
  page : Nat := 0
  limit : Nat := 0

/-- A result page (`schema.Page` without the timing stats). -/
structure PageRes where
  documents : List JVal
  nextPage : Nat
  count : Nat
deriving DecidableEq

/-- The two pagination steps shared by `queryCollection` and
`aggregateCollection`: `lo.Slice(results, L*P, L*P+L)` when both limit and page
are positive, then `results[:limit]` when still longer than the limit. -/
def paginate (L P : Nat) (r1 : List JVal) : List JVal :=
  let r2 := if 0 < L ∧ 0 < P then loSlice r1 (L * P) (L * P + L) else r1
  if 0 < L ∧ L < r2.length then r2.take L else r2

/-- The materialisation tail of `queryCollection` (part_005 lines 478-505):
sort, slice when both limit and page are positive, truncate to the limit,
project, and build the page with `NextPage: query.Page + 1`. -/
def queryCollectionPost (q : Query) (collected : List JVal) : PageRes :=
  let r3 := paginate q.limit q.page (SortOrder q.orderBy collected)
  let r4 := if q.select ≠ [] ∧ q.select.head? ≠ some "*"
    then r3.map (selectDoc q.select) else r3
  { documents := r4, nextPage := q.page + 1, count := r4.length }

/-- The aggregation query object. -/
structure AggQuery where
  groupBy : List String := []
  aggAliases : List String := []
  orderBy : OrderBy := ⟨"", .asc⟩
  page : Nat := 0
  limit : Nat := 0

/-- The materialisation tail of `aggregateCollection` (store.go lines 110-151):
group the collected documents, reduce every group (`schema.ApplyReducers` is
not under src/, so the reducer is a parameter), re-sort, paginate, project the
group keys and aliases, and build the page with `NextPage: query.Page + 1`. -/
def aggregateCollectionPost (reduce : List JVal → Except String JVal)
    (q : AggQuery) (results : List JVal) : Except String PageRes :=
  match ((groupKeys results q.groupBy).map (groupFiber results q.groupBy)).mapM reduce with
  | .error e => .error e
  | .ok reduced =>
      let r3 := paginate q.limit q.page (SortOrder q.orderBy reduced)
      let r4 := r3.map (selectDoc (q.groupBy ++ q.aggAliases))
      .ok { documents := r4, nextPage := q.page + 1, count := r4.length }

mutual

/-- `flat.Flatten` on a document value: nested objects flatten to their dotted
leaf paths; arrays and empty objects are leaves (the claims never flatten
documents containing arrays). -/
def flattenVal (p : List String) : JVal → List (List String × JVal)
  | .obj (kv :: rest) => flattenKVs p (kv :: rest)
  | v => [(p, v)]

def flattenKVs (p : List String) : List (String × JVal) → List (List String × JVal)
  | [] => []
  | (k, v) :: rest => flattenVal (p ++ [k]) v ++ flattenKVs p rest

end

/-- `flat.Flatten(doc.Value(), nil)`: `Document.Value()` casts the root to a
string map, so non-object roots flatten to nothing. -/
def flattenDoc : JVal → List (List String × JVal)
  | .obj kvs => flattenKVs [] kvs
  | _ => []

/-- `Document.SetAll` over already-split paths (the Go map iteration order is
unspecified; the fold order is only observable on interfering paths). -/
def setAll (d : JVal) (kvs : List (List String × JVal)) : JVal :=
  kvs.foldl (fun a pv => setPath a pv.1 pv.2) d

/-- The after-image `transaction.updateDocument` persists:
`after := command.Before.Clone()` then `after.SetAll(flat.Flatten(patch))`. -/
def updateAfterImage (before patch : JVal) : JVal :=
  setAll before (flattenDoc patch)

/-- The after-image `transaction.setDocument` persists: the incoming document
unchanged (a full replace). -/
def setAfterImage (after : JVal) : JVal := after

/-! ### Key codec, KV snapshots and the transactional write path -/

/-- Raw KV bytes. -/
abbrev Bytes := List Nat

def strBytes (s : String) : Bytes := s.data.map Char.toNat

/-- `Document.Bytes()`: the document's JSON text. -/
def docBytes (d : JVal) : Bytes := strBytes (renderJSON d)

/-- An index of a collection (`model.Index`). -/
structure Index where
  name : String
  fields : List String
  unique : Bool := false
  primary : Bool := false
  isBuilding : Bool := false
deriving DecidableEq

/-- Modelled from the spec (§4.D): the key codec package `internal/indexing` is
not under src/.  A value is coerced to its canonical string form. -/
def valueEnc (v : JVal) : Bytes := strBytes (castToString v)

/-- Modelled from the spec (§4.D): `SeekPrefix(collection, index, values)` —
`"index" | collection | index_name | field_i | value_i ...` with a field/value
delimiter byte (1) that printable names and encoded values never contain, and
no docID suffix. -/
def seekPrefix (collection : String) (idx : Index) (d : JVal) : Bytes :=
  strBytes "index" ++ [1] ++ strBytes collection ++ [1] ++ strBytes idx.name
    ++ idx.fields.flatMap (fun f => [1] ++ strBytes f ++ [1] ++ valueEnc (jget d f))

/-- Modelled from the spec (§4.D): `SetDocumentID(docID).Path()` appends
`"\x00" | docID` to the seek prefix. -/
def fullKey (pfx : Bytes) (docID : String) : Bytes := pfx ++ [0] ++ strBytes docID

/-- The trailing docID of a key: the segment after the last `\x00` delimiter,
i.e. `bytes.Split(key, "\x00")` taken at its last index (the whole key when no
delimiter occurs). -/
def trailingDocID (k : Bytes) : Bytes := (k.reverse.takeWhile (fun b => b ≠ 0)).reverse

/-- A KV snapshot: the committed key/value entries the unique-constraint scan
iterates (in key-iteration order). -/
abbrev KV := List (Bytes × Bytes)

/-- Engine errors: a kind plus a causal chain (`errors.Wrap` keeps its cause). -/
inductive Err : Type where
  | uniqueViolation (docID idxName : String)
  | forbidden (msg : String)
  | validation (msg : String)
  | internal (msg : String)
  | wrap (msg : String) (cause : Err)
deriving DecidableEq

/-- The innermost cause of an error chain. -/
def rootCause : Err → Err
  | .wrap _ e => rootCause e
  | e => e

/-- The unique-constraint scan of `transaction.updateSecondaryIndex` (part_003
lines 177-191): iterate every committed entry under the seek prefix; any entry
whose trailing docID differs from the written document's is a violation. -/
def uniqueScan (pfx : Bytes) (docID : String) (idxName : String) : KV → Except Err Unit
  | [] => .ok ()
  | (k, _) :: rest =>
      if pfx.isPrefixOf k then
        if trailingDocID k ≠ strBytes docID then
          .error (.uniqueViolation docID idxName)
        else uniqueScan pfx docID idxName rest
      else uniqueScan pfx docID idxName rest

/-- A mutation issued against the transaction. -/
inductive Mut : Type where
  | set (k v : Bytes)
  | del (k : Bytes)
deriving DecidableEq

inductive Action : Type where
  | create | set | update | delete
deriving DecidableEq

/-- A state-change command (`model.Command`).  `before` is the pre-image
resolved by `persistCommand` (the primary-index read at source line 112; an
absent document resolves to `NewDocument()`, the empty object), so it is never
nil by the time the index code runs. -/
structure Command where
  collection : String
  action : Action
  docID : String
  before : JVal := .obj []
  after : JVal := .obj []

/-- `transaction.updateSecondaryIndex` (part_003 lines 149-214) as the list of
mutations it issues: primary indexes are skipped; Delete removes the before
key; Set/Update/Create remove the before key, run the unique scan on the
committed snapshot when the index is unique (wrapping a violation), and write
the after key with the docID as the value. -/
def updateSecondaryIndexMuts (kv : KV) (idx : Index) (cmd : Command) :
    Except Err (List Mut) :=
  if idx.primary then .ok []
  else
    match cmd.action with
    | .delete =>
        .ok [.del (fullKey (seekPrefix cmd.collection idx cmd.before) cmd.docID)]
    | _ =>
        let delBefore := Mut.del (fullKey (seekPrefix cmd.collection idx cmd.before) cmd.docID)
        let check : Except Err Unit :=
          if idx.unique && !idx.primary then
            match uniqueScan (seekPrefix cmd.collection idx cmd.after) cmd.docID idx.name kv with
            | .error e => .error (.wrap "failed to set document index references" e)
            | .ok _ => .ok ()
          else .ok ()
        match check with
        | .error e => .error e
        | .ok _ =>
            .ok [delBefore,
                 .set (fullKey (seekPrefix cmd.collection idx cmd.after) cmd.docID)
                   (strBytes cmd.docID)]

/-- A collection schema as the write path consumes it. -/
structure CollSchema where
  collection : String
  primaryIndex : Index
  indexes : List Index
deriving DecidableEq

/-- `collectionSchema.PrimaryKey`: the first field of the primary index. -/
def CollSchema.pk (c : CollSchema) : String := c.primaryIndex.fields.headD ""

/-- The primary-index key of a document:
`SeekPrefix(collection, primary, ⦃pk ↦ docID⦄).SetDocumentID(docID).Path()`. -/
def primaryKeyFor (c : CollSchema) (docID : String) : Bytes :=
  fullKey (seekPrefix c.collection c.primaryIndex (.obj [(c.pk, .str docID)])) docID

/-- `persistCommand`'s command fix-up: Update merges the patch over the
pre-image, Create with an empty docID takes a fresh sortable id (`ksuid`,
modelled as the `freshID` parameter) and writes it into the document's
primary-key field. -/
def resolveCmd (c : CollSchema) (freshID : String) (cmd : Command) : Command :=
  match cmd.action with
  | .update => { cmd with after := updateAfterImage cmd.before cmd.after }
  | .create =>
      if cmd.docID = "" then
        { cmd with docID := freshID,
                   after := setPath cmd.after (splitDots c.pk) (.str freshID) }
      else cmd
  | _ => cmd

/-- The primary-index mutation of
`setDocument`/`createDocument`/`updateDocument`/`deleteDocument`: the full
document bytes on writes, a delete on Delete. -/
def primaryMuts (c : CollSchema) (cmd : Command) : List Mut :=
  match cmd.action with
  | .delete => [.del (primaryKeyFor c cmd.docID)]
  | _ => [.set (primaryKeyFor c cmd.docID) (docBytes cmd.after)]

/-- The secondary-index loop of `persistCommand` (part_003 lines 135-142):
primary indexes are skipped, errors are wrapped with `errors.Wrap(err,
Internal, "")`. -/
def secondaryMuts (kv : KV) (cmd : Command) : List Index → Except Err (List Mut)
  | [] => .ok []
  | idx :: rest =>
      if idx.primary then secondaryMuts kv cmd rest
      else
        match updateSecondaryIndexMuts kv idx cmd with
        | .error e => .error (.wrap "" e)
        | .ok m =>
            match secondaryMuts kv cmd rest with
            | .error e => .error e
            | .ok ms => .ok (m ++ ms)

/-- `transaction.persistCommand` (part_003 lines 86-147) as the mutation list
of one command: resolve the command, validate it (`CollectionSchema.
ValidateCommand` is not under src/ and is abstracted as a parameter), write the
primary index, then update every secondary index against the committed
snapshot `kv`. -/
def persistCommandMuts (validate : Command → Except Err Unit) (kv : KV)
    (c : CollSchema) (freshID : String) (cmd0 : Command) : Except Err (List Mut) :=
  match validate (resolveCmd c freshID cmd0) with
  | .error e => .error e
  | .ok _ =>
      match secondaryMuts kv (resolveCmd c freshID cmd0) c.indexes with
      | .error e => .error e
      | .ok sm => .ok (primaryMuts c (resolveCmd c freshID cmd0) ++ sm)

/-- Sets a key in a KV snapshot (replace or append). -/
def kvSet (kv : KV) (k v : Bytes) : KV :=
  if kv.any (fun e => e.1 = k) then kv.map (fun e => if e.1 = k then (k, v) else e)
  else kv ++ [(k, v)]

def applyMut (kv : KV) : Mut → KV
  | .set k v => kvSet kv k v
  | .del k => kv.filter (fun e => e.1 ≠ k)

/-- Applies a transaction's mutations to a snapshot in order (the commit). -/
def applyMuts (kv : KV) (ms : List Mut) : KV := ms.foldl applyMut kv

def kvGet (kv : KV) (k : Bytes) : Option Bytes :=
  match kv.find? (fun e => e.1 = k) with
  | some e => some e.2
  | none => none

/-! ### The wolverine batch writer (writer.go), for claim C2 -/

/-- Modelled from the spec: `prefix.PrimaryKey(collection, id)` of the
wolverine `internal/prefix` package (not under src/); only its injectivity
per (collection, id) matters here. -/
def wPrimaryKey (collection id : String) : Bytes :=
  strBytes collection ++ [2] ++ strBytes id

/-- Modelled from the spec: `pindex.GetIndex(docID, value)` of the wolverine
`internal/prefix` package (not under src/): a key under the index's prefix
whose field values come from the document and which ends in the docID. -/
def wIndexKey (collection : String) (fields : List String) (id : String) (d : JVal) : Bytes :=
  strBytes "index" ++ [1] ++ strBytes collection
    ++ fields.flatMap (fun f => [1] ++ strBytes f ++ [1] ++ valueEnc (jget d f))
    ++ [0] ++ strBytes id

/-- `db.saveBatch` (writer.go lines 70-93), Set action, one document: the
primary entry receives `bits = document.Bytes()`, and every index entry also
receives `bits` — the full document bytes — as its value (`current` is the
empty document when the id is new). -/
def saveBatchSetMuts (collection : String) (indexes : List (List String))
    (current document : JVal) (docID : String) : List Mut :=
  Mut.set (wPrimaryKey collection docID) (docBytes document) ::
    indexes.flatMap (fun idx =>
      [Mut.del (wIndexKey collection idx (castToString (jget current "_id")) current),
       Mut.set (wIndexKey collection idx docID document) (docBytes document)])

/-! ### Collection schema index mutation (schema.go), for claim C8 -/

/-- Modelled from the spec: `Index.Validate` (not under src/) — an index
declares a name and ordered fields. -/
def validateIdx (i : Index) : Except Err Unit :=
  if i.name = "" then .error (.validation "index name required")
  else if i.fields = [] then .error (.validation "index fields required")
  else .ok ()

/-- The JSON form an index takes inside the raw schema document. -/
def indexToJVal (i : Index) : JVal :=
  .obj [("name", .str i.name), ("fields", .arr (i.fields.map .str)),
        ("unique", .bool i.unique), ("primary", .bool i.primary)]

/-- sjson.Delete on an already-split path (missing paths leave the value
unchanged, as sjson does). -/
def delPath : JVal → List String → JVal
  | v, [] => v
  | .obj kvs, [k] => .obj (kvs.filter (fun e => e.1 ≠ k))
  | .obj kvs, k :: k2 :: rest =>
      .obj (kvs.map (fun e => if e.1 = k then (e.1, delPath e.2 (k2 :: rest)) else e))
  | v, _ :: _ => v

/-- The in-memory state of `collectionSchema`: the raw schema document plus the
index map (the map is modelled as an ordered association list). -/
structure SchemaState where
  collection : String
  raw : JVal
  primaryIndex : Index
  indexing : List (String × Index)

/-- Replaces or appends an entry of the index map. -/
def setIdxKey : List (String × Index) → String → Index → List (String × Index)
  | [], key, v => [(key, v)]
  | (k, w) :: rest, key, v =>
      if k = key then (k, v) :: rest else (k, w) :: setIdxKey rest key v

def lookupIdx : List (String × Index) → String → Option Index
  | [], _ => none
  | (k, v) :: rest, key => if k = key then some v else lookupIdx rest key

/-- `collectionSchema.SetIndex` (schema.go lines 110-126): validate, refuse the
primary index's name with a Forbidden error before touching any state, then
write the index into the raw document under the sjson path
`x-indexing.<name>` (index names are dot-free, so the path has exactly these
two segments) and into the index map. -/
def SetIndex (c : SchemaState) (index : Index) : Except Err SchemaState :=
  match validateIdx index with
  | .error e => .error e
  | .ok _ =>
      if index.name = c.primaryIndex.name then
        .error (.forbidden ("forbidden from modifying the primary index: " ++ index.name))
      else
        .ok { c with raw := setPath c.raw ["x-indexing", index.name] (indexToJVal index),
                     indexing := setIdxKey c.indexing index.name index }

/-- `collectionSchema.DelIndex` (schema.go lines 128-141): refuse the primary
index's name with a Forbidden error before touching any state, then delete
from the raw document and the index map. -/
def DelIndex (c : SchemaState) (name : String) : Except Err SchemaState :=
  if name = c.primaryIndex.name then
    .error (.forbidden ("forbidden from deleting the primary index: " ++ name))
  else
    .ok { c with raw := delPath c.raw ["x-indexing", name],
                 indexing := c.indexing.filter (fun e => e.1 ≠ name) }

/-- The concrete user document for the where-clause instances. -/
def c6Doc : JVal := .obj [("age", .num 1)]

/-- The unique secondary index on contact.email used by the write-path
instances. -/
def c1Idx : Index := { name := "email_idx", fields := ["contact.email"], unique := true }

/-- The document already holding the contested email. -/
def c1OtherDoc : JVal := .obj [("contact", .obj [("email", .str "x@y")])]

/-- A Set command writing a second document with the same email. -/
def c1Cmd : Command :=
  { collection := "user", action := .set, docID := "b"
  , before := .obj [], after := .obj [("contact", .obj [("email", .str "x@y")])] }

/-- A committed snapshot holding document "a"'s secondary entry under the
contested email values. -/
def c1KV : KV :=
  [(fullKey (seekPrefix "user" c1Idx c1OtherDoc) "a", strBytes "a")]

/-- The wolverine-writer document for the C2 instances. -/
def c2Doc : JVal := .obj [("_id", .str "a"), ("email", .str "x@y")]

/-- The primary index of the C2 write. -/
def c2Primary : Index := { name := "primary_idx", fields := ["_id"], primary := true }

/-- The collection schema of the C2 write: a primary index and one secondary
email index. -/
def c2Schema : CollSchema :=
  { collection := "user", primaryIndex := c2Primary, indexes := [c2Primary, c1Idx] }

/-- The Set command of the C2 witness. -/
def c2Cmd : Command :=
  { collection := "user", action := .set, docID := "a"
  , before := .obj [], after := c2Doc }

/-- A user document with the given age, for the pagination scenario. -/
def c5User (n : Nat) : JVal := .obj [("age", .num n)]

/-- Ten users with distinct ages 0..9. -/
def c5Users : List JVal := (List.range 10).map c5User

/-- The single-document group for the aggregation instances. -/
def c7Doc : JVal := .obj [("age", .num 5)]

/-- Pre-image for the update-merge instance. -/
def c3Before : JVal :=
  .obj [("name", .str "bob"), ("contact", .obj [("email", .str "a@b")])]

/-- Patch for the update-merge instance: touches only contact.email. -/
def c3Patch : JVal := .obj [("contact", .obj [("email", .str "new@b")])]

/-- A document whose sort field holds a string. -/
def c4DocStr : JVal := .obj [("v", .str "abc")]

/-- A document whose sort field holds boolean true. -/
def c4DocTrue : JVal := .obj [("v", .bool true)]

/-- Numeric sample documents for the sort instances. -/
def c4DocOne : JVal := .obj [("age", .num 1)]

def c4DocTwo : JVal := .obj [("age", .num 2)]

/-- A small user-collection schema state used by concrete instances. -/
def c8Schema : SchemaState :=
  { collection := "user"
  , raw := .obj [("x-collection", .str "user"),
                 ("x-indexing", .obj [("primary_idx",
                    indexToJVal { name := "primary_idx", fields := ["_id"], primary := true })])]
  , primaryIndex := { name := "primary_idx", fields := ["_id"], primary := true }
  , indexing := [("primary_idx", { name := "primary_idx", fields := ["_id"], primary := true })] }

/-- A unique secondary index on `contact.email`. -/
def c8EmailIdx : Index := { name := "email_idx", fields := ["contact.email"], unique := true }

/-! ### Shared lemmas about path get/set -/

theorem lookupIdx_setIdxKey_self (m : List (String × Index)) (k : String) (v : Index) :
    lookupIdx (setIdxKey m k v) k = some v := by
  induction m with
  | nil => simp [setIdxKey, lookupIdx]
  | cons kv rest ih =>
      by_cases hk : kv.1 = k
      · simp [setIdxKey, lookupIdx, hk]
      · simp [setIdxKey, lookupIdx, hk, ih]

theorem lookupIdx_filter_self (m : List (String × Index)) (n : String) :
    lookupIdx (m.filter (fun e => e.1 ≠ n)) n = none := by
  induction m with
  | nil => simp [lookupIdx]
  | cons kv rest ih =>
      by_cases hk : kv.1 = n
      · simpa [List.filter, hk] using ih
      · simpa [List.filter, hk, lookupIdx] using ih

theorem lookupKey_setKey_pos (kvs : List (String × JVal)) (k : String) (w x : JVal)
    (h : lookupKey kvs k = some w) : lookupKey (setKey kvs k x) k = some x := by
  induction kvs with
  | nil => simp [lookupKey] at h
  | cons kv rest ih =>
      by_cases hk : kv.1 = k
      · simp [setKey, lookupKey, hk]
      · simp only [lookupKey, hk, if_false] at h
        simp [setKey, lookupKey, hk, ih h]

theorem lookupKey_setKey_ne (kvs : List (String × JVal)) (k b : String) (x : JVal)
    (h : k ≠ b) : lookupKey (setKey kvs k x) b = lookupKey kvs b := by
  induction kvs with
  | nil => simp [setKey]
  | cons kv rest ih =>
      by_cases hk : kv.1 = k
      · simp [setKey, lookupKey, hk, h, Ne.symm h]
      · simp [setKey, lookupKey, hk, ih]

theorem lookupKey_append_none (kvs : List (String × JVal)) (k : String) (x : JVal)
    (h : lookupKey kvs k = none) : lookupKey (kvs ++ [(k, x)]) k = some x := by
  induction kvs with
  | nil => simp [lookupKey]
  | cons kv rest ih =>
      by_cases hk : kv.1 = k
      · simp [lookupKey, hk] at h
      · simp only [lookupKey, hk, if_false] at h
        simp [lookupKey, hk, ih h]

theorem lookupKey_append_ne (kvs : List (String × JVal)) (k b : String) (x : JVal)
    (h : k ≠ b) : lookupKey (kvs ++ [(k, x)]) b = lookupKey kvs b := by
  induction kvs with
  | nil => simp [lookupKey, h]
  | cons kv rest ih =>
      by_cases hk : kv.1 = b
      · simp [lookupKey, hk]
      · simp [lookupKey, hk, ih]

/-- Reading back the path just written returns the written value. -/
theorem getPath_setPath_same (p : List String) (d v : JVal) :
    getPath (setPath d p v) p = v := by
  induction p generalizing d with
  | nil => simp [setPath, getPath]
  | cons k rest ih =>
      cases d with
      | obj kvs =>
          cases h : lookupKey kvs k with
          | some w =>
              simp only [setPath, h, getPath, lookupKey_setKey_pos kvs k w _ h]
              exact ih _
          | none =>
              simp only [setPath, h, getPath, lookupKey_append_none kvs k _ h]
              exact ih _
      | null => simp only [setPath, getPath, lookupKey, if_pos rfl]; exact ih _
      | bool b => simp only [setPath, getPath, lookupKey, if_pos rfl]; exact ih _
      | num q => simp only [setPath, getPath, lookupKey, if_pos rfl]; exact ih _
      | str s => simp only [setPath, getPath, lookupKey, if_pos rfl]; exact ih _
      | arr l => simp only [setPath, getPath, lookupKey, if_pos rfl]; exact ih _

theorem getPath_null (q : List String) (hq : q ≠ []) : getPath .null q = .null := by
  cases q with
  | nil => exact absurd rfl hq
  | cons a rest => rfl

/-- Writing one path leaves every path that neither extends it nor is extended
by it untouched. -/
theorem getPath_setPath_disjoint (p : List String) (q : List String) (d v : JVal)
    (hpq : ¬ p <+: q) (hqp : ¬ q <+: p) :
    getPath (setPath d p v) q = getPath d q := by
  induction p generalizing q d with
  | nil => exact absurd (List.nil_prefix) hpq
  | cons a p2 ih =>
      cases q with
      | nil => exact absurd (List.nil_prefix) hqp
      | cons b q2 =>
          by_cases hab : a = b
          · subst hab
            have hpq2 : ¬ p2 <+: q2 := fun h =>
              hpq ((List.cons_prefix_cons).mpr ⟨rfl, h⟩)
            have hqp2 : ¬ q2 <+: p2 := fun h =>
              hqp ((List.cons_prefix_cons).mpr ⟨rfl, h⟩)
            have hq2 : q2 ≠ [] := by
              intro h; subst h; exact hqp2 List.nil_prefix
            cases d with
            | obj kvs =>
                cases h : lookupKey kvs a with
                | some w =>
                    simp only [setPath, h, getPath, lookupKey_setKey_pos kvs a w _ h]
                    exact ih q2 w hpq2 hqp2
                | none =>
                    simp only [setPath, h, getPath, lookupKey_append_none kvs a _ h]
                    rw [ih q2 .null hpq2 hqp2, getPath_null q2 hq2]
            | null =>
                simp [setPath, getPath, lookupKey, ih q2 JVal.null hpq2 hqp2,
                  getPath_null q2 hq2]
            | bool x =>
                simp [setPath, getPath, lookupKey, ih q2 JVal.null hpq2 hqp2,
                  getPath_null q2 hq2]
            | num x =>
                simp [setPath, getPath, lookupKey, ih q2 JVal.null hpq2 hqp2,
                  getPath_null q2 hq2]
            | str x =>
                simp [setPath, getPath, lookupKey, ih q2 JVal.null hpq2 hqp2,
                  getPath_null q2 hq2]
            | arr x =>
                simp [setPath, getPath, lookupKey, ih q2 JVal.null hpq2 hqp2,
                  getPath_null q2 hq2]
          · cases d with
            | obj kvs =>
                cases h : lookupKey kvs a with
                | some w => simp only [setPath, h, getPath, lookupKey_setKey_ne kvs a b _ hab]
                | none => simp only [setPath, h, getPath, lookupKey_append_ne kvs a b _ hab]
            | null => simp [setPath, getPath, lookupKey, hab]
            | bool x => simp [setPath, getPath, lookupKey, hab]
            | num x => simp [setPath, getPath, lookupKey, hab]
            | str x => simp [setPath, getPath, lookupKey, hab]
            | arr x => simp [setPath, getPath, lookupKey, hab]

/-- Paths that do not interfere with any written path are preserved by
`setAll`. -/
theorem getPath_setAll_disjoint (kvs : List (List String × JVal)) (d : JVal)
    (q : List String) (h : ∀ pv ∈ kvs, ¬ pv.1 <+: q ∧ ¬ q <+: pv.1) :
    getPath (setAll d kvs) q = getPath d q := by
  induction kvs generalizing d with
  | nil => rfl
  | cons pv rest ih =>
      have h0 := h pv (by simp)
      have := ih (setPath d pv.1 pv.2) (fun x hx => h x (by simp [hx]))
      simpa [setAll] using
        this.trans (getPath_setPath_disjoint pv.1 q d pv.2 h0.1 h0.2)

/-- When the written paths are pairwise non-interfering, every written pair is
readable back from the `setAll` result. -/
theorem getPath_setAll_mem : ∀ (kvs : List (List String × JVal)) (d : JVal),
    kvs.Pairwise (fun a b => ¬ a.1 <+: b.1 ∧ ¬ b.1 <+: a.1) →
    ∀ (p : List String) (v : JVal), (p, v) ∈ kvs →
      getPath (setAll d kvs) p = v := by
  intro kvs
  induction kvs with
  | nil => intro d _ p v hm; simp at hm
  | cons pv rest ih =>
      intro d hpw p v hm
      rcases List.mem_cons.mp hm with h | h
      · subst h
        have hrest : ∀ x ∈ rest, ¬ x.1 <+: p ∧ ¬ p <+: x.1 := by
          intro x hx
          have := (List.pairwise_cons.mp hpw).1 x hx
          exact ⟨this.2, this.1⟩
        calc getPath (setAll (setPath d p v) rest) p
            = getPath (setPath d p v) p := getPath_setAll_disjoint rest _ p hrest
          _ = v := getPath_setPath_same p d v
      · exact ih (setPath d pv.1 pv.2) (List.pairwise_cons.mp hpw).2 p v h

/-! ### Claim C10 -/

/-- Claim C10: `NewDocumentFromBytes` errors exactly on inputs that are not
valid JSON and on valid JSON whose root is an array, and succeeds on every
other parse — non-object roots such as scalars included — so no document it
returns ever has an array root. -/
theorem C10_newDocumentFromBytes (p : Option JVal) :
    ((∃ d, newDocumentFromBytes p = .ok d) ↔ ∃ v, p = some v ∧ jvalValid v = true)
    ∧ (∀ d, newDocumentFromBytes p = .ok d → ∀ l, d ≠ .arr l) := by
  constructor
  · cases p with
    | none => simp [newDocumentFromBytes]
    | some v =>
        by_cases h : jvalValid v = true
        · simp [newDocumentFromBytes, h]
        · simp only [newDocumentFromBytes, if_neg h]
          simp [h]
  · intro d hd l hdl
    cases p with
    | none => simp [newDocumentFromBytes] at hd
    | some v =>
        by_cases h : jvalValid v = true
        · simp only [newDocumentFromBytes, if_pos h, Except.ok.injEq] at hd
          subst hd; subst hdl
          simp [jvalValid] at h
        · simp [newDocumentFromBytes, h] at hd

/-- Witness for C10: a numeric (scalar) root is accepted and is not an array. -/
theorem C10_witness : JVal.num 5 ≠ JVal.arr [] :=
  (C10_newDocumentFromBytes (some (.num 5))).2 (.num 5) (by decide) []

/-! ### Claim C9 -/

/-- Claim C9: every successfully returned Query or Aggregate page carries
`next_page = page + 1` unconditionally — also when the document list is empty —
so `next_page` never signals that no further results exist. -/
theorem C9_nextPage (q : Query) (collected : List JVal)
    (reduce : List JVal → Except String JVal) (aq : AggQuery) (results : List JVal) :
    (queryCollectionPost q collected).nextPage = q.page + 1
    ∧ (∀ p, aggregateCollectionPost reduce aq results = .ok p → p.nextPage = aq.page + 1) := by
  refine ⟨rfl, ?_⟩
  intro p hp
  unfold aggregateCollectionPost at hp
  split at hp
  · exact absurd hp (by simp)
  · simp only [Except.ok.injEq] at hp
    subst hp
    rfl

/-- Witness for C9: a query page requested at page 4 and an aggregate page
requested at page 7 over empty result sets both report the next page
blindly. -/
theorem C9_witness :
    (queryCollectionPost { page := 4 } []).nextPage = 4 + 1
    ∧ (PageRes.mk [] 8 0).nextPage = 7 + 1 := by
  refine ⟨(C9_nextPage { page := 4 } [] (fun _ => .ok (.obj [])) { page := 7 } []).1, ?_⟩
  exact (C9_nextPage { page := 4 } [] (fun _ => .ok (.obj [])) { page := 7 } []).2
    (PageRes.mk [] 8 0) (by rfl)

/-! ### Claim C8 -/

/-- Claim C8: `SetIndex` with an index named like the primary index and
`DelIndex` of the primary index's name fail with a Forbidden error before any
state is produced, while any other (valid) name succeeds and updates both the
raw schema document (under `x-indexing.<name>`) and the in-memory index map. -/
theorem C8_set_del_index (c : SchemaState) (i : Index) (n : String)
    (hv : validateIdx i = .ok ()) :
    (i.name = c.primaryIndex.name →
      SetIndex c i =
        .error (.forbidden ("forbidden from modifying the primary index: " ++ i.name)))
    ∧ (n = c.primaryIndex.name →
      DelIndex c n =
        .error (.forbidden ("forbidden from deleting the primary index: " ++ n)))
    ∧ (i.name ≠ c.primaryIndex.name →
      ∃ c2, SetIndex c i = .ok c2
        ∧ lookupIdx c2.indexing i.name = some i
        ∧ getPath c2.raw ["x-indexing", i.name] = indexToJVal i
        ∧ c2.collection = c.collection ∧ c2.primaryIndex = c.primaryIndex)
    ∧ (n ≠ c.primaryIndex.name →
      ∃ c3, DelIndex c n = .ok c3
        ∧ lookupIdx c3.indexing n = none
        ∧ c3.collection = c.collection ∧ c3.primaryIndex = c.primaryIndex) := by
  refine ⟨?_, ?_, ?_, ?_⟩
  · intro h
    simp [SetIndex, hv, h]
  · intro h
    simp [DelIndex, h]
  · intro h
    refine ⟨⟨c.collection, setPath c.raw ["x-indexing", i.name] (indexToJVal i),
             c.primaryIndex, setIdxKey c.indexing i.name i⟩, ?_, ?_, ?_, rfl, rfl⟩
    · simp [SetIndex, hv, h]
    · exact lookupIdx_setIdxKey_self c.indexing i.name i
    · exact getPath_setPath_same ["x-indexing", i.name] c.raw (indexToJVal i)
  · intro h
    refine ⟨⟨c.collection, delPath c.raw ["x-indexing", n],
             c.primaryIndex, c.indexing.filter (fun e => e.1 ≠ n)⟩, ?_, ?_, rfl, rfl⟩
    · simp [DelIndex, h]
    · exact lookupIdx_filter_self c.indexing n

/-! ### Shared lemmas about the insertion-sort model -/

theorem insertCmp_perm (less : α → α → Bool) (x : α) (l : List α) :
    (insertCmp less x l).Perm (x :: l) := by
  induction l with
  | nil => exact List.Perm.refl _
  | cons y ys ih =>
      by_cases h : less x y
      · simp [insertCmp, h]
      · simp only [insertCmp, if_neg h]
        exact (ih.cons y).trans (List.Perm.swap x y ys)

theorem sortSlice_perm (less : α → α → Bool) (l : List α) :
    (sortSlice less l).Perm l := by
  suffices h : ∀ (l acc : List α),
      (l.foldl (fun acc x => insertCmp less x acc) acc).Perm (acc ++ l) by
    simpa [sortSlice] using h l []
  intro l
  induction l with
  | nil => intro acc; simp
  | cons x xs ih =>
      intro acc
      have h1 : ((x :: xs).foldl (fun acc x => insertCmp less x acc) acc)
          = xs.foldl (fun acc x => insertCmp less x acc) (insertCmp less x acc) := rfl
      rw [h1]
      have h2 := ih (insertCmp less x acc)
      have h3 : (insertCmp less x acc ++ xs).Perm ((x :: acc) ++ xs) :=
        (insertCmp_perm less x acc).append_right xs
      have h4 : ((x :: acc) ++ xs).Perm (acc ++ x :: xs) := List.perm_middle.symm
      exact (h2.trans h3).trans h4

theorem insertCmp_pairwise (le : α → α → Prop) (htr : Transitive le)
    (less : α → α → Bool) (P : α → Prop)
    (hle : ∀ a b, P a → P b → (less a b = true → le a b) ∧ (less a b = false → le b a))
    (x : α) (hx : P x) :
    ∀ (l : List α), (∀ a ∈ l, P a) → l.Pairwise le → (insertCmp less x l).Pairwise le
  | [], _, _ => by simp [insertCmp]
  | y :: ys, hP, hpw => by
      by_cases h : less x y = true
      · simp only [insertCmp, if_pos h]
        refine List.pairwise_cons.mpr ⟨?_, hpw⟩
        intro z hz
        rcases List.mem_cons.mp hz with rfl | hz2
        · exact (hle x z hx (hP z (by simp))).1 h
        · have hxy := (hle x y hx (hP y (by simp))).1 h
          have hyz := (List.pairwise_cons.mp hpw).1 z hz2
          exact htr hxy hyz
      · simp only [insertCmp, if_neg h]
        have hyx := (hle x y hx (hP y (by simp))).2 (by simpa using h)
        refine List.pairwise_cons.mpr ⟨?_, ?_⟩
        · intro z hz
          have hz3 : z = x ∨ z ∈ ys := by
            simpa using (insertCmp_perm less x ys).mem_iff.mp hz
          rcases hz3 with rfl | hz2
          · exact hyx
          · exact (List.pairwise_cons.mp hpw).1 z hz2
        · exact insertCmp_pairwise le htr less P hle x hx ys
            (fun a ha => hP a (by simp [ha])) (List.pairwise_cons.mp hpw).2

theorem sortSlice_pairwise (le : α → α → Prop) (htr : Transitive le)
    (less : α → α → Bool) (P : α → Prop)
    (hle : ∀ a b, P a → P b → (less a b = true → le a b) ∧ (less a b = false → le b a))
    (l : List α) (hl : ∀ a ∈ l, P a) : (sortSlice less l).Pairwise le := by
  suffices h : ∀ (l acc : List α), (∀ a ∈ l, P a) → (∀ a ∈ acc, P a) → acc.Pairwise le →
      (l.foldl (fun acc x => insertCmp less x acc) acc).Pairwise le by
    exact h l [] hl (by simp) (by simp)
  intro l
  induction l with
  | nil => intro acc _ _ hacc; simpa using hacc
  | cons x xs ih =>
      intro acc hP hPacc hacc
      refine ih (insertCmp less x acc) (fun a ha => hP a (by simp [ha])) ?_ ?_
      · intro a ha
        have ha2 : a = x ∨ a ∈ acc := by
          simpa using (insertCmp_perm less x acc).mem_iff.mp ha
        rcases ha2 with rfl | ha3
        · exact hP a (by simp)
        · exact hPacc a ha3
      · exact insertCmp_pairwise le htr less P hle x (hP x (by simp)) acc hPacc hacc

/-- On documents whose field value is numeric, `compareField` is exactly the
float comparison. -/
theorem compareField_num (field : String) (a b : JVal)
    (ha : (jget a field).isNum = true) :
    compareField field a b = decide (gFloat (jget b field) < gFloat (jget a field)) := by
  cases h : jget a field with
  | num q => simp [compareField, h, gType, gFloat]
  | null => rw [h] at ha; simp [JVal.isNum] at ha
  | bool x => rw [h] at ha; simp [JVal.isNum] at ha
  | str x => rw [h] at ha; simp [JVal.isNum] at ha
  | arr x => rw [h] at ha; simp [JVal.isNum] at ha
  | obj x => rw [h] at ha; simp [JVal.isNum] at ha

/-! ### Claim C4 -/

/-- Claim C4 counterexample: under the claimed order null < false < true <
numbers < strings, a descending sort must place the string document before the
boolean-true document; the implementation compares `true` by its string form
"true", which exceeds "abc", and returns the opposite order. -/
theorem C4_counterexample :
    SortOrder ⟨"v", .desc⟩ [c4DocStr, c4DocTrue] = [c4DocTrue, c4DocStr]
    ∧ specValueLt (jget c4DocTrue "v") (jget c4DocStr "v") = true := by
  constructor
  · rfl
  · rfl

/-- Claim C4 (amended): `SortOrder` honours its single orderBy argument, and
the comparison branches on the first document's value type — numbers by float
value, strings (and booleans and JSON values, via their string forms)
lexicographically, null and false never greater — rather than the claimed
cross-type total order; ties carry no stability guarantee (Go sort.Slice is
unstable).  Restricted to documents whose sort-field values are all numbers,
descending and ascending sorts return a permutation of the input that is
ordered by the field value. -/
theorem C4_sort_numeric (field : String) (docs : List JVal) (hf : field ≠ "")
    (h : ∀ d ∈ docs, (jget d field).isNum = true) :
    ((SortOrder ⟨field, .desc⟩ docs).Perm docs
      ∧ (SortOrder ⟨field, .desc⟩ docs).Pairwise
          (fun a b => gFloat (jget b field) ≤ gFloat (jget a field)))
    ∧ ((SortOrder ⟨field, .asc⟩ docs).Perm docs
      ∧ (SortOrder ⟨field, .asc⟩ docs).Pairwise
          (fun a b => gFloat (jget a field) ≤ gFloat (jget b field)))
    ∧ (∀ a b : JVal, gType (jget a field) = .null ∨ gType (jget a field) = .bfalse →
        compareField field a b = false) := by
  have hdesc : SortOrder ⟨field, .desc⟩ docs
      = sortSlice (fun i j => compareField field i j) docs := by
    simp [SortOrder, hf]
  have hasc : SortOrder ⟨field, .asc⟩ docs
      = sortSlice (fun i j => !(compareField field i j)) docs := by
    simp [SortOrder, hf]
  refine ⟨⟨?_, ?_⟩, ⟨?_, ?_⟩, ?_⟩
  · rw [hdesc]; exact sortSlice_perm _ docs
  · rw [hdesc]
    refine sortSlice_pairwise _ ?_ _ (fun d => (jget d field).isNum = true) ?_ docs h
    · intro a b c hab hbc; exact le_trans hbc hab
    · intro a b ha _
      rw [compareField_num field a b ha]
      constructor
      · intro hlt
        exact le_of_lt (of_decide_eq_true hlt)
      · intro hnlt
        exact not_lt.mp (of_decide_eq_false hnlt)
  · rw [hasc]; exact sortSlice_perm _ docs
  · rw [hasc]
    refine sortSlice_pairwise _ ?_ _ (fun d => (jget d field).isNum = true) ?_ docs h
    · intro a b c hab hbc; exact le_trans hab hbc
    · intro a b ha _
      rw [compareField_num field a b ha]
      constructor
      · intro hlt
        have : ¬ (gFloat (jget b field) < gFloat (jget a field)) := by
          simpa using hlt
        exact not_lt.mp this
      · intro hnlt
        have : gFloat (jget b field) < gFloat (jget a field) := by
          simpa using hnlt
        exact le_of_lt this
  · intro a b hab
    rcases hab with hnull | hfalse
    · simp [compareField, hnull]
    · rw [compareField, hfalse]
      cases hv : jget a field with
      | bool x =>
          cases x with
          | false => simp [gBool]
          | true => rw [hv] at hfalse; simp [gType] at hfalse
      | null => simp [gBool]
      | num q => rw [hv] at hfalse; simp [gType] at hfalse
      | str s => rw [hv] at hfalse; simp [gType] at hfalse
      | arr l => rw [hv] at hfalse; simp [gType] at hfalse
      | obj o => rw [hv] at hfalse; simp [gType] at hfalse

/-- Witness for C4 at two numeric documents. -/
theorem C4_witness :
    (SortOrder ⟨"age", .desc⟩ [c4DocOne, c4DocTwo]).Perm [c4DocOne, c4DocTwo]
    ∧ (SortOrder ⟨"age", .desc⟩ [c4DocOne, c4DocTwo]).Pairwise
        (fun a b => gFloat (jget b "age") ≤ gFloat (jget a "age")) :=
  (C4_sort_numeric "age" [c4DocOne, c4DocTwo] (by decide)
    (by intro d hd; fin_cases hd <;> decide)).1

/-! ### Claim C5 -/

/-- `lo.Slice xs s (s+L)` is plain drop-then-take for positive `L`. -/
theorem loSlice_eq_drop_take (xs : List α) (s L : Nat) (hL : 0 < L) :
    loSlice xs s (s + L) = (xs.drop s).take L := by
  unfold loSlice
  rw [if_neg (by omega)]
  by_cases hs : s ≤ xs.length
  · simp only [min_eq_left hs]
    rcases le_or_lt (s + L) xs.length with hle | hgt
    · simp only [min_eq_left hle]
      congr 1
      omega
    · simp only [min_eq_right (le_of_lt hgt)]
      rw [List.take_eq_take]
      simp only [List.length_drop, min_self]
      rw [min_eq_right (by omega)]
  · push_neg at hs
    simp only [min_eq_right (le_of_lt hs),
      min_eq_right (show xs.length ≤ s + L by omega)]
    simp [List.drop_eq_nil_of_le hs.le]

/-- The pagination steps collapse to drop-then-take for positive limits. -/
theorem paginate_eq_drop_take (L P : Nat) (r1 : List JVal) (hL : 0 < L) :
    paginate L P r1 = (r1.drop (L * P)).take L := by
  unfold paginate
  by_cases hp : 0 < P
  · simp only [if_pos (⟨hL, hp⟩ : 0 < L ∧ 0 < P)]
    rw [loSlice_eq_drop_take _ _ _ hL]
    rw [if_neg (by
      intro hcon
      have := hcon.2
      simp only [List.length_take] at this
      omega)]
  · have hP0 : P = 0 := by omega
    subst hP0
    simp only [if_neg (show ¬ (0 < L ∧ 0 < 0) by simp)]
    simp only [Nat.mul_zero, List.drop_zero]
    by_cases hlen : L < r1.length
    · rw [if_pos ⟨hL, hlen⟩]
    · rw [if_neg (fun hcon => hlen hcon.2), List.take_of_length_le (by omega)]

/-- Claim C5: with limit L > 0, a query page is the `[P·L, P·L+L)` slice of the
sorted passing documents (with the select projection applied after slicing);
concretely, ten users with distinct ages 0..9 ordered by age descending with
limit 1 and page i yield exactly the user with age 9-i, for every i in 0..9. -/
theorem C5_pagination (q : Query) (collected : List JVal) (hL : 0 < q.limit) :
    ((queryCollectionPost q collected).documents
      = (if q.select ≠ [] ∧ q.select.head? ≠ some "*" then
          (((SortOrder q.orderBy collected).drop (q.limit * q.page)).take q.limit).map
            (selectDoc q.select)
         else ((SortOrder q.orderBy collected).drop (q.limit * q.page)).take q.limit))
    ∧ (∀ i, i < 10 →
        (queryCollectionPost
            { select := [], wheres := [], orderBy := ⟨"age", .desc⟩, page := i, limit := 1 }
            c5Users).documents = [c5User (9 - i)]) := by
  constructor
  · show (let r3 := paginate q.limit q.page (SortOrder q.orderBy collected)
          let r4 := if q.select ≠ [] ∧ q.select.head? ≠ some "*"
            then r3.map (selectDoc q.select) else r3
          r4) = _
    rw [paginate_eq_drop_take _ _ _ hL]
  · decide

/-- Witness for C5: page 3 of a limit-2 query over five users is the slice
[6, 8) of the descending-sorted list (empty here), and the scenario holds at
page 4. -/
theorem C5_witness :
    (queryCollectionPost
        { select := [], wheres := [], orderBy := ⟨"age", .desc⟩, page := 4, limit := 1 }
        c5Users).documents = [c5User 5] := by
  have h := (C5_pagination
    { select := [], wheres := [], orderBy := ⟨"age", .desc⟩, page := 4, limit := 1 }
    c5Users (by decide)).2 4 (by decide)
  simpa using h

/-! ### Claim C1 -/

/-- The unique scan errors only with the unique-violation error. -/
theorem uniqueScan_error_shape (pfx : Bytes) (docID idxName : String) :
    ∀ (kv : KV) (er : Err), uniqueScan pfx docID idxName kv = .error er →
      er = .uniqueViolation docID idxName := by
  intro kv
  induction kv with
  | nil => intro er h; simp [uniqueScan] at h
  | cons e rest ih =>
      intro er h
      by_cases hpf : pfx.isPrefixOf e.1
      · by_cases htr : trailingDocID e.1 ≠ strBytes docID
        · simp [uniqueScan, hpf, htr] at h
          exact h.symm
        · simp only [uniqueScan, if_pos hpf, if_neg htr] at h
          exact ih er h
      · simp only [uniqueScan, if_neg hpf] at h
        exact ih er h

/-- The unique scan fails exactly when some committed entry under the prefix
carries a different trailing docID. -/
theorem uniqueScan_error_iff (pfx : Bytes) (docID idxName : String) :
    ∀ kv : KV, (uniqueScan pfx docID idxName kv = .error (.uniqueViolation docID idxName)
      ↔ ∃ e ∈ kv, pfx.isPrefixOf e.1 = true ∧ trailingDocID e.1 ≠ strBytes docID) := by
  intro kv
  induction kv with
  | nil => simp [uniqueScan]
  | cons e rest ih =>
      by_cases hpf : pfx.isPrefixOf e.1
      · by_cases htr : trailingDocID e.1 ≠ strBytes docID
        · have hval : uniqueScan pfx docID idxName (e :: rest)
              = .error (.uniqueViolation docID idxName) := by
            simp [uniqueScan, hpf, htr]
          rw [hval]
          constructor
          · intro _
            exact ⟨e, by simp, hpf, htr⟩
          · intro _
            rfl
        · simp only [uniqueScan, if_pos hpf, if_neg htr]
          rw [ih]
          constructor
          · intro ⟨x, hx, h1, h2⟩
            exact ⟨x, by simp [hx], h1, h2⟩
          · intro ⟨x, hx, h1, h2⟩
            rcases List.mem_cons.mp hx with rfl | hx2
            · exact absurd h2 htr
            · exact ⟨x, hx2, h1, h2⟩
      · simp only [uniqueScan, if_neg hpf]
        rw [ih]
        constructor
        · intro ⟨x, hx, h1, h2⟩
          exact ⟨x, by simp [hx], h1, h2⟩
        · intro ⟨x, hx, h1, h2⟩
          rcases List.mem_cons.mp hx with rfl | hx2
          · exact absurd h1 (by simpa using hpf)
          · exact ⟨x, hx2, h1, h2⟩

/-- Claim C1: for a Set/Create/Update write and a unique non-primary index,
`updateSecondaryIndex` scans the committed snapshot under the seek prefix
built from the after-image's field values and fails — with the unique
violation as the root cause of the wrapped error it returns — exactly when
some existing entry under that prefix carries a trailing docID (the segment
after the last 0 delimiter) different from the written document's; otherwise
it issues the before-key delete and the after-key write. -/
theorem C1_unique_violation (kv : KV) (idx : Index) (cmd : Command)
    (ha : cmd.action ≠ .delete) (hu : idx.unique = true) (hp : idx.primary = false) :
    ((∃ er, updateSecondaryIndexMuts kv idx cmd = .error er
        ∧ rootCause er = .uniqueViolation cmd.docID idx.name)
      ↔ ∃ e ∈ kv, (seekPrefix cmd.collection idx cmd.after).isPrefixOf e.1 = true
          ∧ trailingDocID e.1 ≠ strBytes cmd.docID)
    ∧ ((¬ ∃ e ∈ kv, (seekPrefix cmd.collection idx cmd.after).isPrefixOf e.1 = true
          ∧ trailingDocID e.1 ≠ strBytes cmd.docID) →
        updateSecondaryIndexMuts kv idx cmd
          = .ok [.del (fullKey (seekPrefix cmd.collection idx cmd.before) cmd.docID),
                 .set (fullKey (seekPrefix cmd.collection idx cmd.after) cmd.docID)
                   (strBytes cmd.docID)]) := by
  have hcheck : (idx.unique && !idx.primary) = true := by simp [hu, hp]
  have hbody : ∀ (res : Except Err (List Mut)),
      (cmd.action = .create ∨ cmd.action = .set ∨ cmd.action = .update) →
      updateSecondaryIndexMuts kv idx cmd = res →
      (match uniqueScan (seekPrefix cmd.collection idx cmd.after) cmd.docID idx.name kv with
       | .error e => Except.error (Err.wrap "failed to set document index references" e)
       | .ok _ =>
          Except.ok [Mut.del (fullKey (seekPrefix cmd.collection idx cmd.before) cmd.docID),
            Mut.set (fullKey (seekPrefix cmd.collection idx cmd.after) cmd.docID)
              (strBytes cmd.docID)]) = res := by
    intro res hact hres
    rw [← hres]
    rcases hact with h | h | h <;>
      · rw [updateSecondaryIndexMuts, if_neg (by simp [hp]), h]
        simp only [hcheck, if_pos]
        cases huq : uniqueScan (seekPrefix cmd.collection idx cmd.after) cmd.docID idx.name kv
          <;> simp
  have hact : cmd.action = .create ∨ cmd.action = .set ∨ cmd.action = .update := by
    cases h : cmd.action
    · exact Or.inl rfl
    · exact Or.inr (Or.inl rfl)
    · exact Or.inr (Or.inr rfl)
    · exact absurd h ha
  have heq := hbody _ hact rfl
  constructor
  · constructor
    · intro ⟨er, her, hroot⟩
      rw [← heq] at her
      cases huq : uniqueScan (seekPrefix cmd.collection idx cmd.after) cmd.docID idx.name kv with
      | ok u => rw [huq] at her; cases her
      | error e =>
          have he := uniqueScan_error_shape _ _ _ kv e huq
          subst he
          exact (uniqueScan_error_iff _ _ _ kv).mp huq
    · intro hex
      have huq := (uniqueScan_error_iff (seekPrefix cmd.collection idx cmd.after)
        cmd.docID idx.name kv).mpr hex
      refine ⟨.wrap "failed to set document index references"
        (.uniqueViolation cmd.docID idx.name), ?_, rfl⟩
      rw [← heq, huq]
  · intro hnex
    rw [← heq]
    cases huq : uniqueScan (seekPrefix cmd.collection idx cmd.after) cmd.docID idx.name kv with
    | ok u => rfl
    | error e =>
        have he := uniqueScan_error_shape _ _ _ kv e huq
        subst he
        exact absurd ((uniqueScan_error_iff _ _ _ kv).mp huq) hnex

/-- Witness for C1: with document "a" already holding the contested email in
the snapshot, writing document "b" with the same email fails with the unique
violation at its root. -/
theorem C1_witness :
    ∃ er, updateSecondaryIndexMuts c1KV c1Idx c1Cmd = .error er
      ∧ rootCause er = .uniqueViolation "b" "email_idx" :=
  ((C1_unique_violation c1KV c1Idx c1Cmd (by decide) rfl rfl).1).mpr
    ⟨(fullKey (seekPrefix "user" c1Idx c1OtherDoc) "a", strBytes "a"),
      by decide, by decide, by decide⟩

/-! ### Claim C2 -/

theorem resolveCmd_action (c : CollSchema) (f : String) (cmd : Command) :
    (resolveCmd c f cmd).action = cmd.action := by
  cases hA : cmd.action
  · by_cases hid : cmd.docID = "" <;> simp [resolveCmd, hA, hid]
  · simp [resolveCmd, hA]
  · simp [resolveCmd, hA]
  · simp [resolveCmd, hA]

theorem primaryMuts_nondelete (c : CollSchema) (cmd : Command)
    (h : cmd.action ≠ .delete) :
    primaryMuts c cmd = [.set (primaryKeyFor c cmd.docID) (docBytes cmd.after)] := by
  cases hA : cmd.action
  · simp [primaryMuts, hA]
  · simp [primaryMuts, hA]
  · simp [primaryMuts, hA]
  · exact absurd hA h

/-- An ok run of `updateSecondaryIndex` writes only the docID as value, at the
after-image key. -/
theorem updateSecondaryIndexMuts_sets (kv : KV) (idx : Index) (cmd : Command) :
    ∀ (muts : List Mut), updateSecondaryIndexMuts kv idx cmd = .ok muts →
      ∀ m ∈ muts, ∀ k v, m = .set k v →
        v = strBytes cmd.docID
        ∧ k = fullKey (seekPrefix cmd.collection idx cmd.after) cmd.docID := by
  intro muts h m hm k v hmkv
  by_cases hp : idx.primary
  · rw [updateSecondaryIndexMuts, if_pos hp] at h
    injection h with h2
    subst h2
    simp at hm
  · rw [updateSecondaryIndexMuts, if_neg hp] at h
    cases hA : cmd.action <;> rw [hA] at h <;> simp only [] at h
    rotate_left 3
    · injection h with h2
      subst h2
      rcases List.mem_singleton.mp hm with rfl
      cases hmkv
    all_goals
      by_cases hu : (idx.unique && !idx.primary) = true
      · rw [if_pos hu] at h
        cases huq : uniqueScan (seekPrefix cmd.collection idx cmd.after)
            cmd.docID idx.name kv with
        | error e =>
            rw [huq] at h
            cases h
        | ok u =>
            rw [huq] at h
            injection h with h2
            subst h2
            rcases List.mem_cons.mp hm with rfl | hm2
            · cases hmkv
            · rcases List.mem_singleton.mp hm2 with rfl
              injection hmkv with hk hv
              exact ⟨hv.symm, hk.symm⟩
      · rw [if_neg hu] at h
        injection h with h2
        subst h2
        rcases List.mem_cons.mp hm with rfl | hm2
        · cases hmkv
        · rcases List.mem_singleton.mp hm2 with rfl
          injection hmkv with hk hv
          exact ⟨hv.symm, hk.symm⟩

/-- An ok run of the secondary-index loop writes only docID values, each at
the after-image key of one of the collection's non-primary indexes. -/
theorem secondaryMuts_sets (kv : KV) (cmd : Command) :
    ∀ (idxs : List Index) (muts : List Mut), secondaryMuts kv cmd idxs = .ok muts →
      ∀ m ∈ muts, ∀ k v, m = .set k v →
        v = strBytes cmd.docID
        ∧ ∃ idx ∈ idxs, idx.primary = false
          ∧ k = fullKey (seekPrefix cmd.collection idx cmd.after) cmd.docID := by
  intro idxs
  induction idxs with
  | nil =>
      intro muts h m hm k v hmkv
      simp only [secondaryMuts] at h
      injection h with h2
      subst h2
      simp at hm
  | cons idx rest ih =>
      intro muts h m hm k v hmkv
      simp only [secondaryMuts] at h
      by_cases hp : idx.primary
      · rw [if_pos hp] at h
        obtain ⟨hv, idx2, hidx2, hp2, hk⟩ := ih muts h m hm k v hmkv
        exact ⟨hv, idx2, by simp [hidx2], hp2, hk⟩
      · rw [if_neg hp] at h
        cases hup : updateSecondaryIndexMuts kv idx cmd with
        | error e => rw [hup] at h; cases h
        | ok m0 =>
            rw [hup] at h
            cases hrest : secondaryMuts kv cmd rest with
            | error e => rw [hrest] at h; cases h
            | ok ms =>
                rw [hrest] at h
                injection h with h2
                subst h2
                rcases List.mem_append.mp hm with h3 | h3
                · have hc := updateSecondaryIndexMuts_sets kv idx cmd m0 hup m h3 k v hmkv
                  exact ⟨hc.1, idx, by simp, by simpa using hp, hc.2⟩
                · obtain ⟨hv, idx2, hidx2, hp2, hk⟩ := ih ms hrest m h3 k v hmkv
                  exact ⟨hv, idx2, by simp [hidx2], hp2, hk⟩

/-- Claim C2 (amended): in the gokvkit transaction write path, every
key/value mutation a successful Set/Create/Update command issues is either the
primary-index write carrying the document's full JSON bytes, or a
secondary-index write carrying exactly the docID bytes — never the document
body.  (The claim as stated over every write path is false: writer.go's batch
writer stores the full document bytes at secondary index keys, see the
counterexample.) -/
theorem C2_write_values (validate : Command → Except Err Unit) (kv : KV)
    (c : CollSchema) (freshID : String) (cmd : Command) (muts : List Mut)
    (ha : cmd.action ≠ .delete)
    (h : persistCommandMuts validate kv c freshID cmd = .ok muts) :
    ∀ m ∈ muts, ∀ k v, m = .set k v →
      (k = primaryKeyFor c (resolveCmd c freshID cmd).docID
        ∧ v = docBytes (resolveCmd c freshID cmd).after)
      ∨ (v = strBytes (resolveCmd c freshID cmd).docID
        ∧ ∃ idx ∈ c.indexes, idx.primary = false
          ∧ k = fullKey
              (seekPrefix (resolveCmd c freshID cmd).collection idx
                (resolveCmd c freshID cmd).after)
              (resolveCmd c freshID cmd).docID) := by
  intro m hm k v hmkv
  unfold persistCommandMuts at h
  cases hval : validate (resolveCmd c freshID cmd) with
  | error e => rw [hval] at h; cases h
  | ok u =>
      rw [hval] at h
      cases hsm : secondaryMuts kv (resolveCmd c freshID cmd) c.indexes with
      | error e => rw [hsm] at h; cases h
      | ok sm =>
          rw [hsm] at h
          injection h with h2
          subst h2
          have hact : (resolveCmd c freshID cmd).action ≠ .delete := by
            rw [resolveCmd_action]; exact ha
          rcases List.mem_append.mp hm with h3 | h3
          · left
            rw [primaryMuts_nondelete c _ hact] at h3
            rcases List.mem_singleton.mp h3 with rfl
            injection hmkv with hk hv
            exact ⟨hk.symm, hv.symm⟩
          · right
            exact secondaryMuts_sets kv _ c.indexes sm hsm m h3 k v hmkv

/-- Claim C2 counterexample: after a successful Set through the wolverine
batch writer (writer.go), the value stored at the document's secondary-index
key is the full document bytes, not the docID bytes. -/
theorem C2_counterexample :
    kvGet (applyMuts [] (saveBatchSetMuts "user" [["email"]] (.obj []) c2Doc "a"))
        (wIndexKey "user" ["email"] "a" c2Doc) = some (docBytes c2Doc)
    ∧ docBytes c2Doc ≠ strBytes "a" := by
  constructor
  · rfl
  · decide

/-- Witness for C2 at the concrete Set of document "a": the secondary email
entry written carries exactly the docID bytes. -/
theorem C2_witness :
    (fullKey (seekPrefix "user" c1Idx c2Doc) "a"
        = primaryKeyFor c2Schema (resolveCmd c2Schema "f" c2Cmd).docID
      ∧ strBytes "a" = docBytes (resolveCmd c2Schema "f" c2Cmd).after)
    ∨ (strBytes "a" = strBytes (resolveCmd c2Schema "f" c2Cmd).docID
      ∧ ∃ idx ∈ c2Schema.indexes, idx.primary = false
        ∧ fullKey (seekPrefix "user" c1Idx c2Doc) "a"
            = fullKey
                (seekPrefix (resolveCmd c2Schema "f" c2Cmd).collection idx
                  (resolveCmd c2Schema "f" c2Cmd).after)
                (resolveCmd c2Schema "f" c2Cmd).docID) :=
  C2_write_values (fun _ => .ok ()) [] c2Schema "f" c2Cmd
    (primaryMuts c2Schema c2Cmd
      ++ [.del (fullKey (seekPrefix "user" c1Idx (.obj [])) "a"),
          .set (fullKey (seekPrefix "user" c1Idx c2Doc) "a") (strBytes "a")])
    (by decide) (by rfl)
    (.set (fullKey (seekPrefix "user" c1Idx c2Doc) "a") (strBytes "a"))
    (by simp)
    (fullKey (seekPrefix "user" c1Idx c2Doc) "a") (strBytes "a") rfl

/-! ### Claim C3 -/

/-- Claim C3: the post-image an Update persists is the pre-image (cloned) with
every key/value pair of flatten(patch) set along its dotted path — a deep
partial merge: paths that interfere with no flattened patch path keep their
pre-image values, and every patch leaf reads back — while Set persists its
document unchanged (the only full-document replace). -/
theorem C3_update_merge (before patch : JVal)
    (hnp : (flattenDoc patch).Pairwise (fun a b => ¬ a.1 <+: b.1 ∧ ¬ b.1 <+: a.1)) :
    (∀ q : List String, (∀ pv ∈ flattenDoc patch, ¬ pv.1 <+: q ∧ ¬ q <+: pv.1) →
        getPath (updateAfterImage before patch) q = getPath before q)
    ∧ (∀ p v, (p, v) ∈ flattenDoc patch →
        getPath (updateAfterImage before patch) p = v)
    ∧ (∀ after : JVal, setAfterImage after = after) := by
  refine ⟨?_, ?_, fun _ => rfl⟩
  · intro q hq
    exact getPath_setAll_disjoint (flattenDoc patch) before q hq
  · intro p v hm
    exact getPath_setAll_mem (flattenDoc patch) before hnp p v hm

/-- Witness for C3: merging a contact.email patch into a two-field document
keeps the unmentioned name and applies the patched leaf. -/
theorem C3_witness :
    getPath (updateAfterImage c3Before c3Patch) ["name"] = .str "bob"
    ∧ getPath (updateAfterImage c3Before c3Patch) ["contact", "email"] = .str "new@b" := by
  have h := C3_update_merge c3Before c3Patch (by
    simp [c3Patch, flattenDoc, flattenKVs, flattenVal])
  constructor
  · refine (h.1 ["name"] ?_).trans (by rfl)
    intro pv hpv
    simp only [c3Patch, flattenDoc, flattenKVs, flattenVal, List.nil_append,
      List.append_nil, List.mem_singleton] at hpv
    subst hpv
    constructor
    · intro hcon
      rcases hcon with ⟨t, ht⟩
      simp at ht
    · intro hcon
      rcases hcon with ⟨t, ht⟩
      simp at ht
  · refine h.2.1 ["contact", "email"] (.str "new@b") ?_
    simp [c3Patch, flattenDoc, flattenKVs, flattenVal]

/-! ### Claim C7 -/

theorem jget_jset_same (a : JVal) (f : String) (v : JVal) : jget (jset a f v) f = v :=
  getPath_setPath_same _ _ _

theorem splitChars_ne_nil (delim : Char) (cs : List Char) : splitChars delim cs ≠ [] := by
  cases cs with
  | nil => simp [splitChars]
  | cons c rest =>
      simp only [splitChars]
      cases h : splitChars delim rest with
      | nil => by_cases hc : c = delim <;> simp [hc]
      | cons seg segs => by_cases hc : c = delim <;> simp [hc]

theorem splitDots_ne_nil (s : String) : splitDots s ≠ [] := by
  simp [splitDots, splitChars_ne_nil]

theorem jvalValid_setPath (a v : JVal) (p : List String) (hp : p ≠ []) :
    jvalValid (setPath a p v) = true := by
  cases p with
  | nil => exact absurd rfl hp
  | cons k rest =>
      cases a with
      | obj kvs =>
          rcases h : lookupKey kvs k with _ | w <;> simp [setPath, jvalValid, h]
      | null => simp [setPath, jvalValid]
      | bool b => simp [setPath, jvalValid]
      | num q => simp [setPath, jvalValid]
      | str s => simp [setPath, jvalValid]
      | arr l => simp [setPath, jvalValid]

theorem jvalValid_jset (a v : JVal) (f : String) : jvalValid (jset a f v) = true :=
  jvalValid_setPath a v (splitDots f) (splitDots_ne_nil f)

/-- The count loop adds one per document to the alias value. -/
theorem c7_count_loop (fld asN : String) :
    ∀ (docs : List JVal) (a : JVal), jvalValid a = true →
      ∀ k : Int, castToFloat (jget a asN) = k →
        ∃ r, aggregateLoop [⟨fld, some asN, some .count⟩] (some a) docs = .ok (some r)
          ∧ castToFloat (jget r asN) = k + docs.length ∧ jvalValid r = true := by
  intro docs
  induction docs with
  | nil =>
      intro a hv k hk
      exact ⟨a, rfl, by simpa using hk, hv⟩
  | cons next rest ih =>
      intro a hv k hk
      have hstep : aggregateLoop [⟨fld, some asN, some .count⟩] (some a) (next :: rest)
          = aggregateLoop [⟨fld, some asN, some .count⟩]
              (some (jset a asN (.num (k + 1)))) rest := by
        simp [aggregateLoop, hv, List.foldlM, applyAggStep, selAlias, hk]
      obtain ⟨r, hr, hrk, hrv⟩ := ih (jset a asN (.num (k + 1)))
        (jvalValid_jset a (.num (k + 1)) asN) (k + 1)
        (by rw [jget_jset_same]; rfl)
      refine ⟨r, hstep.trans hr, ?_, hrv⟩
      rw [hrk]
      simp only [List.length_cons]
      push_cast
      ring

/-- The sum loop adds each remaining document's field value to the alias. -/
theorem c7_sum_loop (fld asN : String) :
    ∀ (docs : List JVal) (a : JVal), jvalValid a = true →
      ∀ k : Int, castToFloat (jget a asN) = k →
        ∃ r, aggregateLoop [⟨fld, some asN, some .sum⟩] (some a) docs = .ok (some r)
          ∧ castToFloat (jget r asN)
              = k + (docs.map (fun d => castToFloat (jget d fld))).sum
          ∧ jvalValid r = true := by
  intro docs
  induction docs with
  | nil =>
      intro a hv k hk
      exact ⟨a, rfl, by simpa using hk, hv⟩
  | cons next rest ih =>
      intro a hv k hk
      have hstep : aggregateLoop [⟨fld, some asN, some .sum⟩] (some a) (next :: rest)
          = aggregateLoop [⟨fld, some asN, some .sum⟩]
              (some (jset a asN (.num (k + castToFloat (jget next fld))))) rest := by
        simp [aggregateLoop, hv, List.foldlM, applyAggStep, selAlias, hk]
      obtain ⟨r, hr, hrk, hrv⟩ := ih (jset a asN (.num (k + castToFloat (jget next fld))))
        (jvalValid_jset a _ asN) (k + castToFloat (jget next fld))
        (by rw [jget_jset_same]; rfl)
      refine ⟨r, hstep.trans hr, ?_, hrv⟩
      rw [hrk]
      simp [List.map_cons, List.sum_cons]
      ring

/-- Claim C7 counterexample: for the one-document group whose only age is 5,
the min reducer folds from the absent alias's float value 0 and returns
min_age = 0 instead of the group minimum 5, and the avg aggregate — which the
claim lists among the available reducers — falls to the unsupported-aggregate
error branch. -/
theorem C7_counterexample :
    jget c7Doc "age" = .num 5
    ∧ aggregateDocs [c7Doc] [⟨"age", some "min_age", some .min⟩]
        = .ok (some (.obj [("age", .num 5), ("min_age", .num 0)]))
    ∧ aggregateDocs [c7Doc] [⟨"age", some "avg_age", some .avg⟩]
        = .error "unsupported aggregate function: age/avg" := by
  refine ⟨rfl, rfl, rfl⟩

/-- Claim C7 (amended): the executor partitions the passing documents by the
"."-joined string forms of their groupBy field values (each document belongs to
the fiber of its own key), and reduces each group with the aggregate functions
{count, sum, min, max} only: count and sum produce the group size and the sum
of the field values whenever the alias starts absent (float value 0), while
min/max fold from that same 0 starting value (so they clamp toward 0, see the
counterexample) and avg is not implemented — selecting it makes the reduction
return an unsupported-aggregate error. -/
theorem C7_groupby_aggregate (docs : List JVal) (fields : List String) (d : JVal)
    (fld asN : String) (d0 : JVal) (rest : List JVal)
    (h0 : castToFloat (jget d0 asN) = 0) :
    (d ∈ docs → d ∈ groupFiber docs fields (groupKey fields d))
    ∧ (∃ r, aggregateDocs (d0 :: rest) [⟨fld, some asN, some .count⟩] = .ok (some r)
        ∧ castToFloat (jget r asN) = (d0 :: rest).length)
    ∧ (∃ r, aggregateDocs (d0 :: rest) [⟨fld, some asN, some .sum⟩] = .ok (some r)
        ∧ castToFloat (jget r asN)
            = ((d0 :: rest).map (fun x => castToFloat (jget x fld))).sum)
    ∧ (∃ e, aggregateDocs (d0 :: rest) [⟨fld, some asN, some .avg⟩] = .error e) := by
  refine ⟨?_, ?_, ?_, ?_⟩
  · intro hd
    simp [groupFiber, List.mem_filter, hd]
  · have hstep : aggregateDocs (d0 :: rest) [⟨fld, some asN, some .count⟩]
        = aggregateLoop [⟨fld, some asN, some .count⟩]
            (some (jset d0 asN (.num (0 + 1)))) rest := by
      simp [aggregateDocs, aggregateLoop, List.foldlM, applyAggStep, selAlias, h0]
    obtain ⟨r, hr, hrk, _⟩ := c7_count_loop fld asN rest (jset d0 asN (.num (0 + 1)))
      (jvalValid_jset d0 _ asN) 1 (by rw [jget_jset_same]; rfl)
    refine ⟨r, hstep.trans hr, ?_⟩
    rw [hrk]
    simp only [List.length_cons]
    push_cast
    ring
  · have hstep : aggregateDocs (d0 :: rest) [⟨fld, some asN, some .sum⟩]
        = aggregateLoop [⟨fld, some asN, some .sum⟩]
            (some (jset d0 asN (.num (0 + castToFloat (jget d0 fld))))) rest := by
      simp [aggregateDocs, aggregateLoop, List.foldlM, applyAggStep, selAlias, h0]
    obtain ⟨r, hr, hrk, _⟩ := c7_sum_loop fld asN rest
      (jset d0 asN (.num (0 + castToFloat (jget d0 fld))))
      (jvalValid_jset d0 _ asN) (castToFloat (jget d0 fld))
      (by rw [jget_jset_same]; simp [castToFloat])
    refine ⟨r, hstep.trans hr, ?_⟩
    rw [hrk]
    simp [List.map_cons, List.sum_cons]
  · refine ⟨"unsupported aggregate function: " ++ fld ++ "/" ++ AggFn.avg.str, ?_⟩
    simp [aggregateDocs, aggregateLoop, List.foldlM, applyAggStep, selAlias]

/-- Witness for C7 over a concrete two-document group: the count alias reads 2
and the sum alias reads 9. -/
theorem C7_witness :
    (∃ r, aggregateDocs [c7Doc, .obj [("age", .num 4)]]
        [⟨"age", some "age_sum", some .sum⟩] = .ok (some r)
      ∧ castToFloat (jget r "age_sum")
          = (([c7Doc, .obj [("age", .num 4)]]).map
              (fun x => castToFloat (jget x "age"))).sum) :=
  (C7_groupby_aggregate [] [] (.obj []) "age" "age_sum" c7Doc [.obj [("age", .num 4)]]
    (by decide)).2.2.1

/-! ### Claim C6 -/

/-- A clause either evaluates to a boolean or its operator is invalid. -/
theorem evalClause_ok_iff (d : JVal) (w : Where) :
    (∃ b, evalClause d w = .ok b) ↔ validOp w.op = true := by
  unfold evalClause validOp
  split_ifs with h1 h2 h3 h4 h5 h6 h7 h8 <;> simp_all

/-- Claim C6 counterexample: the claim says evaluation with any operator
outside the operator set returns an error, but when an earlier clause already
failed, `Document.Where` returns `(false, nil)` without ever reaching the
invalid operator. -/
theorem C6_counterexample :
    validOp "~" = false
    ∧ docWhere c6Doc [⟨"age", "==", .num 999⟩, ⟨"age", "~", .num 1⟩] = .ok false := by
  constructor
  · rfl
  · rfl

/-- Claim C6 (amended): a document passes `Document.Where` exactly when every
clause holds under the implemented operator semantics (valid operators never
error), and evaluation returns an error exactly when the clause list reaches a
clause with an operator outside {==, !=, >, >=, <, <=, in, contains} — that
is, when some invalid-operator clause is preceded only by passing clauses;
an earlier failing clause instead drops the document with no error. -/
theorem C6_where_semantics (d : JVal) (ws : List Where) :
    ((∀ w ∈ ws, validOp w.op = true) → docWhere d ws = .ok (ws.all (clauseHolds d)))
    ∧ ((∃ e, docWhere d ws = .error e) ↔
        ∃ pre w post, ws = pre ++ w :: post ∧ validOp w.op = false ∧
          ∀ u ∈ pre, evalClause d u = .ok true) := by
  induction ws with
  | nil =>
      refine ⟨fun _ => rfl, ?_⟩
      simp [docWhere]
  | cons w rest ih =>
      constructor
      · intro hall
        have hw := hall w (by simp)
        obtain ⟨b, hb⟩ := (evalClause_ok_iff d w).mpr hw
        cases b with
        | false =>
            simp [docWhere, hb, List.all_cons, clauseHolds]
        | true =>
            have := ih.1 (fun u hu => hall u (by simp [hu]))
            simp [docWhere, hb, List.all_cons, clauseHolds, this]
      · constructor
        · intro ⟨e, he⟩
          cases hc : evalClause d w with
          | error e2 =>
              have hvw : validOp w.op = false := by
                by_cases hv : validOp w.op = true
                · obtain ⟨b, hb⟩ := (evalClause_ok_iff d w).mpr hv
                  rw [hb] at hc; cases hc
                · simpa using hv
              exact ⟨[], w, rest, rfl, hvw, by simp⟩
          | ok b =>
              cases b with
              | false => rw [docWhere, hc] at he; cases he
              | true =>
                  rw [docWhere, hc] at he
                  obtain ⟨pre, w2, post, hsplit, hvw2, hpre⟩ := ih.2.mp ⟨e, he⟩
                  refine ⟨w :: pre, w2, post, by simp [hsplit], hvw2, ?_⟩
                  intro u hu
                  rcases List.mem_cons.mp hu with h | h
                  · subst h; exact hc
                  · exact hpre u h
        · intro ⟨pre, w2, post, hsplit, hvw2, hpre⟩
          cases pre with
          | nil =>
              simp only [List.nil_append, List.cons.injEq] at hsplit
              obtain ⟨hw2, hpost⟩ := hsplit
              subst hw2; subst hpost
              cases hc : evalClause d w with
              | error e => exact ⟨e, by rw [docWhere, hc]⟩
              | ok b =>
                  have : validOp w.op = true := (evalClause_ok_iff d w).mp ⟨b, hc⟩
                  rw [hvw2] at this; cases this
          | cons u pre2 =>
              simp only [List.cons_append, List.cons.injEq] at hsplit
              obtain ⟨rfl, hrest⟩ := hsplit
              have hu : evalClause d w = .ok true := hpre w (by simp)
              obtain ⟨e, he⟩ := ih.2.mpr
                ⟨pre2, w2, post, hrest, hvw2, fun u2 hu2 => hpre u2 (by simp [hu2])⟩
              exact ⟨e, by rw [docWhere, hu]; exact he⟩

/-- Witness for C6: with valid operators the clause list decides membership —
the sample document passes an age range and containment check. -/
theorem C6_witness :
    docWhere c6Doc [⟨"age", ">=", .num 1⟩, ⟨"age", "<", .num 3⟩] = .ok true := by
  have h := (C6_where_semantics c6Doc [⟨"age", ">=", .num 1⟩, ⟨"age", "<", .num 3⟩]).1
    (by decide)
  rw [h]
  decide

/-- Witness for C8: a fresh email index on a schema whose primary index is
`primary_idx` is accepted and lands in both stores, while touching
`primary_idx` itself is Forbidden. -/
theorem C8_witness :
    (SetIndex c8Schema { name := "primary_idx", fields := ["_id"], primary := true } =
      .error (.forbidden "forbidden from modifying the primary index: primary_idx"))
    ∧ (∃ c2, SetIndex c8Schema c8EmailIdx = .ok c2
        ∧ lookupIdx c2.indexing "email_idx" = some c8EmailIdx
        ∧ getPath c2.raw ["x-indexing", "email_idx"] = indexToJVal c8EmailIdx
        ∧ c2.collection = c8Schema.collection ∧ c2.primaryIndex = c8Schema.primaryIndex) := by
  constructor
  · exact (C8_set_del_index c8Schema
      { name := "primary_idx", fields := ["_id"], primary := true } "x" (by decide)).1 rfl
  · exact (C8_set_del_index c8Schema c8EmailIdx "x" (by decide)).2.2.1 (by decide)

end GoKVKit
